import Mathlib

/-!
Shallow embedding of the pathik crawler core (Go sources under crawler/ and
storage/, plus the JS binding), together with proofs about the embedded
operations.  External effects (DNS lookup, the browser session, the Kafka
producer, the subprocess launcher) are modelled as explicit oracle
parameters; every definition mirrors the control flow of the corresponding
source function.
-/

/-- A resolved IP address as the Go code observes it after the
`ip.String()` / `net.ParseIP` round trip inside `isPrivateIP`
(crawler/crawler.go).  `v4` covers every address whose `To4()` is non-nil
(plain IPv4 and IPv4-mapped IPv6); `v6` covers the remaining IPv6
addresses, for which `To4()` returns nil. -/
inductive IPAddr where
  | v4 (a b c d : Nat)
  | v6 (groups : List Nat)
deriving DecidableEq

/-- Model of Go `net.IP.To4`: the four bytes for an IPv4 (or IPv4-mapped)
address, `none` otherwise. -/
def toV4 : IPAddr → Option (Nat × Nat × Nat × Nat)
  | .v4 a b c d => some (a, b, c, d)
  | .v6 _ => none

/-- One private range from the `privateRanges` table in `isPrivateIP`
(crawler/crawler.go lines 339-347): a start IP and an end IP, kept
byte-wise as in the source. -/
structure IPRange where
  s0 : Nat
  s1 : Nat
  s2 : Nat
  s3 : Nat
  e0 : Nat
  e1 : Nat
  e2 : Nat
  e3 : Nat

/-- The table of private ranges from crawler/crawler.go lines 343-346. -/
def privateRanges : List IPRange :=
  [⟨10, 0, 0, 0, 10, 255, 255, 255⟩,
   ⟨172, 16, 0, 0, 172, 31, 255, 255⟩,
   ⟨192, 168, 0, 0, 192, 168, 255, 255⟩,
   ⟨127, 0, 0, 0, 127, 255, 255, 255⟩]

/-- Embedding of `isPrivateIP` (crawler/crawler.go lines 324-362).  The
argument is the outcome of `net.ParseIP` on the textual address: `none`
when the string does not parse at all.  The source compares only the
first octet for equality and bounds the second octet by the range's
start/end second octets. -/
def isPrivateIP (p : Option IPAddr) : Bool :=
  match p with
  | none => false
  | some ip =>
    match toV4 ip with
    | none => false
    | some (a, b, _, _) =>
      privateRanges.any (fun r => decide (a = r.s0) && decide (r.s1 ≤ b) && decide (b ≤ r.e1))

/-- The parts of a parsed URL that `ValidateURL` inspects:
`parsedURL.Scheme` and `parsedURL.Hostname()`. -/
structure URLParts where
  scheme : String
  hostname : String
deriving DecidableEq

/-- Outcome of `net.LookupIP` for the hostname: `failure` models a DNS
error, `ok` carries the resolved addresses. -/
inductive DNSResult where
  | failure
  | ok (ips : List IPAddr)
deriving DecidableEq

/-- The distinct error returns of `ValidateURL`, one constructor per
`fmt.Errorf` site in crawler/crawler.go lines 364-404. -/
inductive ValidationError where
  | invalidFormat
  | schemeNotAllowed
  | localhostRestricted
  | privateIP
deriving DecidableEq

/-- Embedding of `ValidateURL` (crawler/crawler.go lines 364-404).  The
URL-parse outcome and the DNS lookup outcome are passed as oracles; the
branch order matches the source: parse failure, scheme check, the
localhost literals, then DNS failure (allow), empty result (allow),
private address (reject). -/
def ValidateURL (parsed : Option URLParts) (dns : DNSResult) : Except ValidationError Unit :=
  match parsed with
  | none => .error .invalidFormat
  | some u =>
    if u.scheme ≠ "http" ∧ u.scheme ≠ "https" then .error .schemeNotAllowed
    else if u.hostname = "localhost" ∨ u.hostname = "127.0.0.1" then .error .localhostRestricted
    else
      match dns with
      | .failure => .ok ()
      | .ok ips =>
        if ips.isEmpty then .ok ()
        else if ips.any (fun ip => isPrivateIP (some ip)) then .error .privateIP
        else .ok ()

/-- `maxRetries` from crawler/crawler.go line 278. -/
def maxRetries : Nat := 3

/-- `minContentLength` from crawler/crawler.go line 281. -/
def minContentLength : Nat := 5000

/-- `maxContentLength` from crawler/crawler.go line 283 (20 MB). -/
def maxContentLength : Nat := 20 * 1024 * 1024

/-- The behaviour of one browser session (one loop iteration of
`FetchPage`): the outcome of the first `page.HTML()` read and of the
second read after `page.WaitStable`.  A `WaitStable` timeout is only
logged by the source, so it needs no modelling. -/
structure SessionBehavior where
  firstRead : Except Unit (List Char)
  secondRead : Except Unit (List Char)

/-- Observable events of a `FetchPage` run: acquiring a token from the
process-wide rate limiter, and the network activity (browser connect and
page load) of attempt `i`. -/
inductive FetchEvent where
  | acquireToken
  | network (attempt : Nat)
deriving DecidableEq

/-- The distinct error returns of `FetchPage`: a validation error
forwarded from `ValidateURL`, a rate-limiter error, or retry
exhaustion. -/
inductive FetchErr where
  | validation (e : ValidationError)
  | rateLimit
  | exhausted
deriving DecidableEq

/-- Decidable equality for `Except`, used to evaluate concrete fetch
results in witnesses. -/
instance {ε α : Type} [DecidableEq ε] [DecidableEq α] : DecidableEq (Except ε α) := fun a b =>
  match a, b with
  | .error e, .error f => if h : e = f then isTrue (by rw [h]) else isFalse (by simp [h])
  | .error _, .ok _ => isFalse (by simp)
  | .ok _, .error _ => isFalse (by simp)
  | .ok x, .ok y => if h : x = y then isTrue (by rw [h]) else isFalse (by simp [h])

/-- Result of a `FetchPage` run: the event trace, the returned HTML or
error, and the number of fetch attempts (loop iterations) performed. -/
structure FetchResult where
  events : List FetchEvent
  result : Except FetchErr (List Char)
  attempts : Nat
deriving DecidableEq

/-- The truncation step of `FetchPage` (crawler/crawler.go lines
439-443 and 460-464): content longer than `maxContentLength` is cut to
exactly the cap. -/
def truncateContent (s : List Char) : List Char :=
  if maxContentLength < s.length then s.take maxContentLength else s

/-- The retry loop of `FetchPage` (crawler/crawler.go lines 418-470),
with the session behaviour of each attempt supplied by the oracle
`sess`.  Each iteration contacts the network, reads the HTML, truncates
it to `maxContentLength` when longer, returns it when it reaches
`minContentLength`, otherwise waits for stability and re-reads; a failed
read falls through to the next attempt. -/
def fetchLoop (sess : Nat → SessionBehavior) (attempt : Nat) : Nat → FetchResult
  | 0 => ⟨[], .error .exhausted, 0⟩
  | fuel + 1 =>
    let b := sess attempt
    match b.firstRead with
    | .error _ =>
      let r := fetchLoop sess (attempt + 1) fuel
      ⟨.network attempt :: r.events, r.result, r.attempts + 1⟩
    | .ok html =>
      if minContentLength ≤ (truncateContent html).length then
        ⟨[.network attempt], .ok (truncateContent html), 1⟩
      else
        match b.secondRead with
        | .ok h2 => ⟨[.network attempt], .ok (truncateContent h2), 1⟩
        | .error _ =>
          let r := fetchLoop sess (attempt + 1) fuel
          ⟨.network attempt :: r.events, r.result, r.attempts + 1⟩

/-- Embedding of `FetchPage` (crawler/crawler.go lines 406-471): validate
the URL, acquire one rate-limiter token (`rateOk` is the outcome of
`rateLimiter.Wait`), then run the retry loop with `maxRetries` fuel. -/
def FetchPage (parsed : Option URLParts) (dns : DNSResult) (rateOk : Bool)
    (sess : Nat → SessionBehavior) : FetchResult :=
  match ValidateURL parsed dns with
  | .error e => ⟨[], .error (.validation e), 0⟩
  | .ok _ =>
    if rateOk then
      let r := fetchLoop sess 0 maxRetries
      ⟨.acquireToken :: r.events, r.result, r.attempts⟩
    else ⟨[], .error .rateLimit, 0⟩

/-- The `ContentType` enum of storage/kafka.go (constants `HTMLContent`
and `MarkdownContent`). -/
inductive CType where
  | html
  | markdown
deriving DecidableEq

/-- Embedding of `containsContentType` (storage/kafka.go lines 231-238). -/
def containsContentType (types : List CType) (target : CType) : Bool :=
  types.any (fun t => t == target)

/-- Embedding of `StreamToKafka` (storage/kafka.go lines 167-228, same in
the variant of part_009).  `writerOk` is the type assertion on the writer
argument; `send t` is the outcome of `SendToKafka` for the message of
content type `t`.  The returned list records which sends were attempted,
in order; the source returns early when a send fails.  The empty
`contentTypes` list defaults to both content types. -/
def StreamToKafka (writerOk : Bool) (send : CType → Except Unit Unit)
    (contentTypes : List CType) : List CType × Except Unit Unit :=
  if !writerOk then ([], .error ())
  else
    let types := if contentTypes.isEmpty then [CType.html, CType.markdown] else contentTypes
    if containsContentType types .html then
      match send .html with
      | .error e => ([.html], .error e)
      | .ok _ =>
        if containsContentType types .markdown then
          match send .markdown with
          | .error e => ([.html, .markdown], .error e)
          | .ok _ => ([.html, .markdown], .ok ())
        else ([.html], .ok ())
    else
      if containsContentType types .markdown then
        match send .markdown with
        | .error e => ([.markdown], .error e)
        | .ok _ => ([.markdown], .ok ())
      else ([], .ok ())

/-- Model of Go `strings.ReplaceAll` with a one-character pattern: every
occurrence of `c` becomes `u`. -/
def replaceChar (c u : Char) (s : List Char) : List Char :=
  s.map (fun x => if x = c then u else x)

/-- Model of Go `strings.ReplaceAll(s, "..", "_")`: left-to-right,
non-overlapping replacement of the two-character pattern. -/
def replaceDotDot : List Char → List Char
  | '.' :: '.' :: rest => '_' :: replaceDotDot rest
  | c :: rest => c :: replaceDotDot rest
  | [] => []

/-- Model of Go `strings.Contains(s, "..")`. -/
def hasDotDot : List Char → Bool
  | c1 :: c2 :: rest => (c1 = '.' && c2 = '.') || hasDotDot (c2 :: rest)
  | _ => false

/-- Model of Go `strings.Trim(s, "/")`: drop leading and trailing
slashes. -/
def trimSlashes (s : List Char) : List Char :=
  ((s.dropWhile (fun c => c = '/')).reverse.dropWhile (fun c => c = '/')).reverse

/-- The `unsafe` character table of `SanitizeURL` (storage/storage.go
line 315), in source order.  The backtick and the braces are written by
code point. -/
def unsafeChars : List Char :=
  [':', '/', '\\', '?', '*', '"', '<', '>', '|', ' ', '\t', '\n', '\r',
   '&', '=', '+', '$', ',', ';', '^', Char.ofNat 96, Char.ofNat 123, Char.ofNat 125,
   '[', ']', '(', ')', '#', '%']

/-- The parse-success branch of `SanitizeURL` (storage/storage.go lines
306-328): combine `parsedURL.Host` and the trimmed path, replace every
character of the unsafe table with an underscore, collapse `..`, and
truncate to 200 characters. -/
def sanitizeParsed (host path : List Char) : List Char :=
  let result := host ++ (if path ≠ [] ∧ path ≠ ['/'] then '_' :: trimSlashes path else [])
  let result := unsafeChars.foldl (fun r c => replaceChar c '_' r) result
  let result := replaceDotDot result
  if 200 < result.length then result.take 200 else result

/-- The parse-failure branch of `SanitizeURL` (storage/storage.go lines
292-304): only nine characters are replaced, and neither the `..`
collapse nor the truncation is applied. -/
def sanitizeFallback (raw : List Char) : List Char :=
  ['/', '\\', ':', '*', '?', '"', '<', '>', '|'].foldl (fun r c => replaceChar c '_' r) raw

/-- Embedding of `SanitizeURL` (storage/storage.go lines 288-329).  The
outcome of `url.Parse` is an oracle: `some (host, path)` is the parsed
`Host` and `Path`, `none` means the parse failed (Go's `url.Parse`
rejects, e.g., invalid percent escapes and control characters) so the
fallback branch runs on the raw string. -/
def SanitizeURL (parsed : Option (List Char × List Char)) (raw : List Char) : List Char :=
  match parsed with
  | some (host, path) => sanitizeParsed host path
  | none => sanitizeFallback raw

/-- Embedding of `GetDomainNameForFile` (storage/storage.go lines
398-412).  The oracle is the parse outcome: `some (hostname, path)`
carries `parsedURL.Hostname()` and `parsedURL.Path`; `none` is a parse
failure, mapped to `"unknown"`. -/
def GetDomainNameForFile (parsed : Option (List Char × List Char)) : List Char :=
  match parsed with
  | none => ("unknown").toList
  | some (hostname, path) =>
    let domain := replaceChar '.' '_' hostname
    let p := trimSlashes path
    if p = [] then domain else domain ++ '_' :: replaceChar '/' '_' p

/-- A path component is kept by `filepath.Clean` when it is neither
empty, nor `.`, nor `..`. -/
def goodComp (c : List Char) : Prop := c ≠ [] ∧ c ≠ ['.'] ∧ c ≠ ['.', '.']

instance (c : List Char) : Decidable (goodComp c) := by
  unfold goodComp; infer_instance

/-- Split a path string at `/` separators (model of the component view
used by Go's `filepath.Clean`). -/
def splitSlash : List Char → List (List Char)
  | [] => [[]]
  | c :: rest =>
    if c = '/' then [] :: splitSlash rest
    else
      match splitSlash rest with
      | [] => [[c]]
      | s :: ss => (c :: s) :: ss

/-- One step of `filepath.Clean` on an absolute path: skip empty and `.`
components, let `..` pop the previous component, append anything else. -/
def cleanStep (acc : List (List Char)) (c : List Char) : List (List Char) :=
  if c = [] ∨ c = ['.'] then acc
  else if c = ['.', '.'] then acc.dropLast
  else acc ++ [c]

/-- Model of Go `filepath.Abs` followed by `filepath.Clean`, at the
component level: `cwd` is the process working directory as a cleaned
absolute component list; an absolute input ignores it. -/
def absComps (cwd : List (List Char)) (p : List Char) : List (List Char) :=
  (splitSlash p).foldl cleanStep (if p.head? = some '/' then [] else cwd)

/-- Render an absolute component list back to a path string, as Go's
`filepath.Clean` does (the empty list is the root `/`). -/
def renderAbs (cs : List (List Char)) : List Char :=
  if cs = [] then ['/'] else (cs.map (fun c => '/' :: c)).flatten

/-- The distinct error returns of `SaveToLocalFile` that the embedding
covers (I/O failures of `MkdirAll` and `WriteFile` are not modelled;
they also return errors without writing). -/
inductive SaveError where
  | dirTraversal
  | pathTraversal
deriving DecidableEq

/-- `maxContentSize` from storage/storage.go line 422 (10 MB). -/
def maxContentSize : Nat := 10 * 1024 * 1024

/-- Embedding of `SaveToLocalFile` (storage/storage.go lines 414-476).
`cwd` is the working directory (component list) used by `filepath.Abs`;
`parsed` is the `url.Parse` outcome consumed by `GetDomainNameForFile`;
`date` is the formatted current date.  On success it returns the
filename passed to `WriteFile` together with the (possibly truncated)
content written; an error return means nothing is written. -/
def SaveToLocalFile (cwd : List (List Char)) (content : List Char)
    (parsed : Option (List Char × List Char)) (date : List Char)
    (fileType : List Char) (outputDir : List Char) :
    Except SaveError (List Char × List Char) :=
  if hasDotDot outputDir then .error .dirTraversal
  else
    let content := if maxContentSize < content.length then content.take maxContentSize else content
    let domain := GetDomainNameForFile parsed
    let safeFileType :=
      if fileType = ("html").toList ∨ fileType = ("md").toList then fileType else ("txt").toList
    let base := domain ++ '_' :: date ++ '.' :: safeFileType
    let filename :=
      if outputDir ≠ [] ∧ outputDir ≠ ['.'] then renderAbs (absComps cwd outputDir ++ [base])
      else base
    let absFilename := renderAbs (absComps cwd filename)
    let absOutputDir := renderAbs (absComps cwd outputDir)
    if absOutputDir.isPrefixOf absFilename then .ok (filename, content)
    else .error .pathTraversal

/-- The returned filename resolves inside the output directory: the
cleaned absolute components of `dir` are a prefix of those of `fn`. -/
def isWithin (cwd : List (List Char)) (fn dir : List Char) : Prop :=
  ∃ rest, absComps cwd fn = absComps cwd dir ++ rest

/-- Outcome of one binary invocation in the JS binding (part_013): the
promisified `exec` either reports an error or succeeds. -/
inductive ExecOutcome where
  | failed
  | succeeded
deriving DecidableEq

/-- The pair returned by `findFilesForUrl` in part_013 (empty string when
the file is missing). -/
structure FoundFiles where
  htmlFile : String
  mdFile : String
deriving DecidableEq

/-- One per-URL entry of the result object built by `crawl` in part_013:
either the located files or an error entry. -/
inductive JSResult where
  | files (htmlFile mdFile : String)
  | failure
deriving DecidableEq

/-- Model of the JS object assignment `results[url] = v`: replace the
entry when the key is present, append otherwise (string keys keep
insertion order). -/
def insertResult (m : List (String × JSResult)) (k : String) (v : JSResult) :
    List (String × JSResult) :=
  if m.any (fun p => p.1 = k) then m.map (fun p => if p.1 = k then (k, v) else p)
  else m ++ [(k, v)]

/-- Assign `results[url] = f url` for each URL in order, as the loops of
`crawl` and `processSequentially` (part_013) do. -/
def upsertAll (f : String → JSResult) (urls : List String)
    (acc : List (String × JSResult)) : List (String × JSResult) :=
  urls.foldl (fun m url => insertResult m url (f url)) acc

/-- The per-URL entry computed by `processSequentially` (part_013 lines
105-138): an error entry when the exec fails, otherwise the files found
for the URL. -/
def seqEntry (exec : String → ExecOutcome) (find : String → FoundFiles)
    (url : String) : JSResult :=
  match exec url with
  | .failed => .failure
  | .succeeded => .files (find url).htmlFile (find url).mdFile

/-- Embedding of `processSequentially` (part_013 lines 105-138). -/
def processSequentially (exec : String → ExecOutcome) (find : String → FoundFiles)
    (urls : List String) (acc : List (String × JSResult)) : List (String × JSResult) :=
  upsertAll (seqEntry exec find) urls acc

/-- Embedding of the JS binding's batch entry point `crawl` (part_013
lines 21-95).  `parExec` is the outcome of the single parallel binary
invocation, `exec` the per-URL outcome in the sequential path, `find`
the `findFilesForUrl` oracle.  An empty URL list throws; the parallel
path fills the result object per URL on success and falls back to
`processSequentially` (on the still-empty object) on failure. -/
def crawl (parallel : Bool) (parExec : ExecOutcome) (exec : String → ExecOutcome)
    (find : String → FoundFiles) (urls : List String) :
    Except Unit (List (String × JSResult)) :=
  if urls.isEmpty then .error ()
  else if parallel ∧ 1 < urls.length then
    match parExec with
    | .succeeded =>
      .ok (upsertAll (fun url => .files (find url).htmlFile (find url).mdFile) urls [])
    | .failed => .ok (processSequentially exec find urls [])
  else .ok (processSequentially exec find urls [])

/-- Concrete session oracle whose HTML reads always fail, used by the
fetch witnesses and counterexamples. -/
def sessAllFail : Nat → SessionBehavior := fun _ => ⟨.error (), .error ()⟩

/-- Concrete oversized page: one character more than the 20 MB cap. -/
def bigPage : List Char := List.replicate (maxContentLength + 1) 'a'

/-- Concrete session oracle whose first read returns the oversized page. -/
def sessBig : Nat → SessionBehavior := fun _ => ⟨.ok bigPage, .error ()⟩

/-- Concrete send oracle for which the HTML message delivery fails and
the Markdown delivery would succeed. -/
def sendHTMLFails : CType → Except Unit Unit := fun t =>
  match t with
  | .html => .error ()
  | .markdown => .ok ()

/-- Concrete exec oracle for the batch-crawl witness: the first URL
fails, others succeed. -/
def execW : String → ExecOutcome := fun u =>
  if u = "https://a.example" then .failed else .succeeded

/-- Concrete file-location oracle for the batch-crawl witness. -/
def findW : String → FoundFiles := fun _ => ⟨"x.html", "x.md"⟩

/-! Helper lemmas. -/

/-- After the scheme and hostname guards pass, `ValidateURL` only
inspects the DNS outcome. -/
theorem validateURL_eq (u : URLParts) (dns : DNSResult)
    (h1 : u.scheme = "http" ∨ u.scheme = "https")
    (h2 : ¬(u.hostname = "localhost" ∨ u.hostname = "127.0.0.1")) :
    ValidateURL (some u) dns =
      match dns with
      | .failure => .ok ()
      | .ok ips =>
        if ips.isEmpty then .ok ()
        else if ips.any (fun ip => isPrivateIP (some ip)) then .error .privateIP
        else .ok () := by
  have hs : ¬(u.scheme ≠ "http" ∧ u.scheme ≠ "https") := by
    rcases h1 with h | h <;> simp [h]
  simp only [ValidateURL, if_neg hs, if_neg h2]

/-- For a well-formed IPv4 quad, the byte-wise check of `isPrivateIP`
recognises exactly the four CIDR ranges of the specification. -/
theorem isPrivateIP_v4_iff (a b c d : Nat) (hb : b < 256) :
    isPrivateIP (some (.v4 a b c d)) = true ↔
      (a = 10 ∨ (a = 172 ∧ 16 ≤ b ∧ b ≤ 31) ∨ (a = 192 ∧ b = 168) ∨ a = 127) := by
  simp only [isPrivateIP, toV4, privateRanges, List.any_cons, List.any_nil,
    Bool.or_eq_true, Bool.and_eq_true, decide_eq_true_eq, Bool.or_false]
  omega

/-! Claim C1. -/

/-- C1: for every http/https URL whose hostname resolves to at least one
IPv4 address in 10.0.0.0/8, 172.16.0.0/12, 192.168.0.0/16 or
127.0.0.0/8, `ValidateURL` returns a rejection error; for a URL
resolving only to public IPv4 addresses (hostname not a localhost
literal) it returns no error. -/
theorem validateURL_rejects_private_accepts_public :
    (∀ (u : URLParts) (ips : List IPAddr) (a b c d : Nat),
      (u.scheme = "http" ∨ u.scheme = "https") →
      IPAddr.v4 a b c d ∈ ips →
      a < 256 → b < 256 → c < 256 → d < 256 →
      (a = 10 ∨ (a = 172 ∧ 16 ≤ b ∧ b ≤ 31) ∨ (a = 192 ∧ b = 168) ∨ a = 127) →
      ∃ e, ValidateURL (some u) (.ok ips) = .error e)
    ∧
    (∀ (u : URLParts) (ips : List IPAddr),
      (u.scheme = "http" ∨ u.scheme = "https") →
      u.hostname ≠ "localhost" → u.hostname ≠ "127.0.0.1" →
      (∀ ip ∈ ips, ∃ a b c d, ip = IPAddr.v4 a b c d ∧
        a < 256 ∧ b < 256 ∧ c < 256 ∧ d < 256 ∧
        ¬(a = 10 ∨ (a = 172 ∧ 16 ≤ b ∧ b ≤ 31) ∨ (a = 192 ∧ b = 168) ∨ a = 127)) →
      ValidateURL (some u) (.ok ips) = .ok ()) := by
  constructor
  · intro u ips a b c d hs hmem _ hb _ _ hrange
    by_cases hloc : u.hostname = "localhost" ∨ u.hostname = "127.0.0.1"
    · refine ⟨.localhostRestricted, ?_⟩
      have hsch : ¬(u.scheme ≠ "http" ∧ u.scheme ≠ "https") := by
        rcases hs with h | h <;> simp [h]
      simp only [ValidateURL, if_neg hsch, if_pos hloc]
    · refine ⟨.privateIP, ?_⟩
      rw [validateURL_eq u _ hs hloc]
      have hne : ips.isEmpty = false := by
        cases ips with
        | nil => simp at hmem
        | cons x xs => rfl
      have hany : ips.any (fun ip => isPrivateIP (some ip)) = true := by
        refine List.any_eq_true.mpr ⟨_, hmem, ?_⟩
        exact (isPrivateIP_v4_iff a b c d hb).mpr hrange
      simp [hne, hany]
  · intro u ips hs h2 h3 hpub
    have hloc : ¬(u.hostname = "localhost" ∨ u.hostname = "127.0.0.1") := by tauto
    rw [validateURL_eq u _ hs hloc]
    have hany : ips.any (fun ip => isPrivateIP (some ip)) = false := by
      rw [List.any_eq_false]
      intro ip hip
      obtain ⟨a, b, c, d, rfl, _, hb, _, _, hnr⟩ := hpub ip hip
      simp only [Bool.not_eq_true]
      rw [Bool.eq_false_iff]
      intro htrue
      exact hnr ((isPrivateIP_v4_iff a b c d hb).mp htrue)
    simp [hany]

/-- Witness for C1: a host resolving to 10.0.0.5 is rejected, and
https://example.com resolving to 93.184.216.34 is accepted. -/
theorem validateURL_rejects_private_accepts_public_witness :
    (∃ e, ValidateURL (some ⟨"https", "intranet.local"⟩)
        (.ok [.v4 10 0 0 5]) = .error e) ∧
    ValidateURL (some ⟨"https", "example.com"⟩)
        (.ok [.v4 93 184 216 34]) = .ok () := by
  constructor
  · exact validateURL_rejects_private_accepts_public.1
      ⟨"https", "intranet.local"⟩ [.v4 10 0 0 5] 10 0 0 5
      (Or.inr rfl) (by simp) (by decide) (by decide) (by decide) (by decide) (Or.inl rfl)
  · exact validateURL_rejects_private_accepts_public.2
      ⟨"https", "example.com"⟩ [.v4 93 184 216 34]
      (Or.inr rfl) (by decide) (by decide)
      (by intro ip hip
          simp only [List.mem_singleton] at hip
          subst hip
          exact ⟨93, 184, 216, 34, rfl, by decide, by decide, by decide, by decide, by decide⟩)

/-! Claim C7. -/

/-- C7: for every http/https URL whose hostname is not a localhost
literal, a DNS failure or an empty resolution result makes `ValidateURL`
return no error (fail-open). -/
theorem validateURL_fail_open_on_dns_failure (u : URLParts)
    (h1 : u.scheme = "http" ∨ u.scheme = "https")
    (h2 : u.hostname ≠ "localhost") (h3 : u.hostname ≠ "127.0.0.1") :
    ValidateURL (some u) .failure = .ok () ∧
    ValidateURL (some u) (.ok []) = .ok () := by
  have hloc : ¬(u.hostname = "localhost" ∨ u.hostname = "127.0.0.1") := by tauto
  constructor
  · rw [validateURL_eq u _ h1 hloc]
  · rw [validateURL_eq u _ h1 hloc]
    simp

/-- Witness for C7 at a concrete unresolvable host. -/
theorem validateURL_fail_open_on_dns_failure_witness :
    ValidateURL (some ⟨"https", "no-such-host.example"⟩) .failure = .ok () ∧
    ValidateURL (some ⟨"https", "no-such-host.example"⟩) (.ok []) = .ok () :=
  validateURL_fail_open_on_dns_failure ⟨"https", "no-such-host.example"⟩
    (Or.inr rfl) (by decide) (by decide)

/-! Claim C10. -/

/-- C10: `isPrivateIP` is false for anything that is not an IPv4 (or
IPv4-mapped) address — unparseable strings and plain IPv6 addresses —
so `ValidateURL` accepts any http/https URL (hostname not a localhost
literal) resolving only to such IPv6 addresses, including `::1`. -/
theorem isPrivateIP_false_on_non_ipv4 :
    (∀ gs, isPrivateIP (some (.v6 gs)) = false) ∧
    isPrivateIP none = false ∧
    (∀ (u : URLParts) (ips : List IPAddr),
      (u.scheme = "http" ∨ u.scheme = "https") →
      u.hostname ≠ "localhost" → u.hostname ≠ "127.0.0.1" →
      (∀ ip ∈ ips, ∃ gs, ip = IPAddr.v6 gs) →
      ValidateURL (some u) (.ok ips) = .ok ()) := by
  refine ⟨fun gs => rfl, rfl, ?_⟩
  intro u ips hs h2 h3 hv6
  have hloc : ¬(u.hostname = "localhost" ∨ u.hostname = "127.0.0.1") := by tauto
  rw [validateURL_eq u _ hs hloc]
  have hany : ips.any (fun ip => isPrivateIP (some ip)) = false := by
    rw [List.any_eq_false]
    intro ip hip
    obtain ⟨gs, rfl⟩ := hv6 ip hip
    simp [isPrivateIP, toV4]
  simp [hany]

/-- Witness for C10: the IPv6 loopback `::1` is not private, and a URL
resolving only to it is accepted. -/
theorem isPrivateIP_false_on_non_ipv4_witness :
    isPrivateIP (some (.v6 [0, 0, 0, 0, 0, 0, 0, 1])) = false ∧
    ValidateURL (some ⟨"http", "ip6.example"⟩)
      (.ok [.v6 [0, 0, 0, 0, 0, 0, 0, 1]]) = .ok () := by
  constructor
  · exact isPrivateIP_false_on_non_ipv4.1 [0, 0, 0, 0, 0, 0, 0, 1]
  · exact isPrivateIP_false_on_non_ipv4.2.2 ⟨"http", "ip6.example"⟩
      [.v6 [0, 0, 0, 0, 0, 0, 0, 1]] (Or.inl rfl) (by decide) (by decide)
      (by intro ip hip
          simp only [List.mem_singleton] at hip
          exact ⟨[0, 0, 0, 0, 0, 0, 0, 1], hip⟩)

/-! Claim C4. -/

/-- C4 counterexample: with both content types requested by the empty
default and an HTML delivery failure, `StreamToKafka` attempts only the
HTML send — the Markdown send is never attempted — and surfaces the
error. -/
theorem streamToKafka_markdown_suppressed_counterexample :
    (StreamToKafka true sendHTMLFails []).1 = [CType.html] ∧
    CType.markdown ∉ (StreamToKafka true sendHTMLFails []).1 ∧
    (StreamToKafka true sendHTMLFails []).2 = .error () := by decide

/-- C4 amended: when both content types are requested (empty default or
explicitly), `StreamToKafka` attempts the Markdown send exactly when the
HTML send succeeded; an HTML delivery failure returns early and
suppresses the Markdown attempt. -/
theorem streamToKafka_html_failure_suppresses_markdown :
    ∀ send : CType → Except Unit Unit,
      ((StreamToKafka true send []).1 =
        match send .html with
        | .error _ => [CType.html]
        | .ok _ => [CType.html, CType.markdown]) ∧
      ((StreamToKafka true send [.html, .markdown]).1 =
        match send .html with
        | .error _ => [CType.html]
        | .ok _ => [CType.html, CType.markdown]) := by
  intro send
  cases h1 : send .html <;> cases h2 : send .markdown <;>
    simp [StreamToKafka, containsContentType, h1, h2]

/-- When every first read fails, the retry loop consumes all its fuel
and ends in exhaustion. -/
theorem fetchLoop_allFail (sess : Nat → SessionBehavior)
    (hf : ∀ i, (sess i).firstRead = .error ()) :
    ∀ (fuel attempt : Nat),
      (fetchLoop sess attempt fuel).attempts = fuel ∧
      (fetchLoop sess attempt fuel).result = .error .exhausted := by
  intro fuel
  induction fuel with
  | zero => intro a; exact ⟨rfl, rfl⟩
  | succ n ih =>
    intro a
    simp only [fetchLoop, hf a]
    exact ⟨by rw [(ih (a + 1)).1], (ih (a + 1)).2⟩

/-- Every event of the retry loop is network activity: the loop itself
never acquires a rate-limiter token. -/
theorem fetchLoop_events_network (sess : Nat → SessionBehavior) :
    ∀ (fuel attempt : Nat) (e : FetchEvent),
      e ∈ (fetchLoop sess attempt fuel).events → ∃ i, e = .network i := by
  intro fuel
  induction fuel with
  | zero => intro a e he; simp [fetchLoop] at he
  | succ n ih =>
    intro a e he
    simp only [fetchLoop] at he
    split at he
    · rcases List.mem_cons.mp he with h | h
      · exact ⟨a, h⟩
      · exact ih (a + 1) e h
    · split at he
      · rw [List.mem_singleton] at he
        exact ⟨a, he⟩
      · split at he
        · rw [List.mem_singleton] at he
          exact ⟨a, he⟩
        · rcases List.mem_cons.mp he with h | h
          · exact ⟨a, h⟩
          · exact ih (a + 1) e h

/-- The retry loop never acquires a rate-limiter token. -/
theorem fetchLoop_no_token (sess : Nat → SessionBehavior)
    (fuel attempt : Nat) :
    FetchEvent.acquireToken ∉ (fetchLoop sess attempt fuel).events := by
  intro hmem
  obtain ⟨i, hi⟩ := fetchLoop_events_network sess fuel attempt _ hmem
  exact FetchEvent.noConfusion hi

/-- Truncated content never exceeds the 20 MB cap. -/
theorem truncateContent_length (s : List Char) :
    (truncateContent s).length ≤ maxContentLength := by
  unfold truncateContent
  split
  · simp [List.length_take]
  · omega

/-- Any HTML returned by the retry loop is at most `maxContentLength`
characters long. -/
theorem fetchLoop_ok_length (sess : Nat → SessionBehavior) :
    ∀ (fuel attempt : Nat) (h : List Char),
      (fetchLoop sess attempt fuel).result = .ok h → h.length ≤ maxContentLength := by
  intro fuel
  induction fuel with
  | zero => intro a h hres; simp [fetchLoop] at hres
  | succ n ih =>
    intro a h hres
    simp only [fetchLoop] at hres
    split at hres
    · exact ih (a + 1) h hres
    · split at hres
      · simp only [Except.ok.injEq] at hres
        subst hres
        apply truncateContent_length
      · split at hres
        · simp only [Except.ok.injEq] at hres
          subst hres
          apply truncateContent_length
        · exact ih (a + 1) h hres

/-! Claim C3. -/

/-- C3 counterexample: for a URL that fails validation (scheme `ftp`),
`FetchPage` returns an error after zero attempts even though the session
oracle errors on every read — not after exactly `maxRetries` = 3
attempts as the claim states for every URL. -/
theorem fetchPage_retry_bound_counterexample :
    (FetchPage (some ⟨"ftp", "example.com"⟩) (.ok []) true sessAllFail).attempts = 0 ∧
    (FetchPage (some ⟨"ftp", "example.com"⟩) (.ok []) true sessAllFail).attempts ≠ maxRetries ∧
    (FetchPage (some ⟨"ftp", "example.com"⟩) (.ok []) true sessAllFail).result =
      .error (.validation .schemeNotAllowed) := by decide

/-- C3 amended: for every URL that passes validation (and whose
rate-limiter wait succeeds), if every browser-session HTML read errors,
`FetchPage` performs exactly `maxRetries` = 3 attempts — not more, not
fewer — and then returns an error. -/
theorem fetchPage_retry_bound (parsed : Option URLParts) (dns : DNSResult)
    (sess : Nat → SessionBehavior)
    (hv : ValidateURL parsed dns = .ok ())
    (hs : ∀ i, (sess i).firstRead = .error () ∧ (sess i).secondRead = .error ()) :
    (FetchPage parsed dns true sess).attempts = maxRetries ∧
    (FetchPage parsed dns true sess).result = .error .exhausted := by
  have hf : ∀ i, (sess i).firstRead = .error () := fun i => (hs i).1
  have hloop := fetchLoop_allFail sess hf maxRetries 0
  simp only [FetchPage, hv, if_pos]
  exact ⟨hloop.1, hloop.2⟩

/-- Witness for C3 at a valid URL with an always-failing session. -/
theorem fetchPage_retry_bound_witness :
    ValidateURL (some ⟨"http", "example.org"⟩) (.ok [.v4 8 8 8 8]) = .ok () ∧
    (∀ i, (sessAllFail i).firstRead = .error () ∧ (sessAllFail i).secondRead = .error ()) ∧
    (FetchPage (some ⟨"http", "example.org"⟩) (.ok [.v4 8 8 8 8]) true sessAllFail).attempts
      = maxRetries ∧
    (FetchPage (some ⟨"http", "example.org"⟩) (.ok [.v4 8 8 8 8]) true sessAllFail).result
      = .error .exhausted :=
  ⟨by decide, fun _ => ⟨rfl, rfl⟩,
    (fetchPage_retry_bound _ _ _ (by decide) (fun _ => ⟨rfl, rfl⟩)).1,
    (fetchPage_retry_bound _ _ _ (by decide) (fun _ => ⟨rfl, rfl⟩)).2⟩

/-! Claim C5. -/

/-- C5 counterexample: with a valid URL and a session whose reads always
fail, `FetchPage` performs 3 attempts (3 separate network contacts) but
acquires only one rate-limiter token — attempts 2 and 3 contact the
network without a token acquisition of their own, contradicting the
claim that every retry attempt acquires a token first. -/
theorem fetchPage_token_per_attempt_counterexample :
    (FetchPage (some ⟨"http", "example.org"⟩) (.ok [.v4 8 8 8 8]) true sessAllFail).attempts = 3 ∧
    ((FetchPage (some ⟨"http", "example.org"⟩) (.ok [.v4 8 8 8 8]) true sessAllFail).events.count
      .acquireToken) = 1 ∧
    (FetchPage (some ⟨"http", "example.org"⟩) (.ok [.v4 8 8 8 8]) true sessAllFail).events =
      [.acquireToken, .network 0, .network 1, .network 2] := by decide

/-- C5 amended: for every URL passing validation with a successful
rate-limiter wait, `FetchPage` acquires exactly one token per call, and
that acquisition precedes all network activity (it is the first event
of the trace); retry attempts do not re-acquire. -/
theorem fetchPage_single_token_acquisition (parsed : Option URLParts)
    (dns : DNSResult) (sess : Nat → SessionBehavior)
    (hv : ValidateURL parsed dns = .ok ()) :
    (FetchPage parsed dns true sess).events.count .acquireToken = 1 ∧
    (FetchPage parsed dns true sess).events.head? = some .acquireToken := by
  simp only [FetchPage, hv, if_pos]
  constructor
  · rw [List.count_cons_self]
    rw [List.count_eq_zero.mpr (fetchLoop_no_token sess maxRetries 0)]
  · rfl

/-- Witness for C5 at a concrete valid URL. -/
theorem fetchPage_single_token_acquisition_witness :
    ValidateURL (some ⟨"https", "example.com"⟩) (.ok [.v4 93 184 216 34]) = .ok () ∧
    (FetchPage (some ⟨"https", "example.com"⟩) (.ok [.v4 93 184 216 34]) true
      sessAllFail).events.count .acquireToken = 1 ∧
    (FetchPage (some ⟨"https", "example.com"⟩) (.ok [.v4 93 184 216 34]) true
      sessAllFail).events.head? = some .acquireToken :=
  ⟨by decide,
    (fetchPage_single_token_acquisition _ _ sessAllFail (by decide)).1,
    (fetchPage_single_token_acquisition _ _ sessAllFail (by decide)).2⟩

/-! Claim C8. -/

/-- C8: whenever `FetchPage` returns successfully the HTML is at most
`maxContentLength` (20 MB) long, and content longer than the cap on the
first read of the first attempt is truncated to exactly the cap and
returned rather than rejected. -/
theorem fetchPage_content_cap :
    (∀ (parsed : Option URLParts) (dns : DNSResult) (rateOk : Bool)
        (sess : Nat → SessionBehavior) (h : List Char),
      (FetchPage parsed dns rateOk sess).result = .ok h → h.length ≤ maxContentLength) ∧
    (∀ (parsed : Option URLParts) (dns : DNSResult) (sess : Nat → SessionBehavior)
        (s : List Char),
      ValidateURL parsed dns = .ok () →
      (sess 0).firstRead = .ok s →
      maxContentLength < s.length →
      (FetchPage parsed dns true sess).result = .ok (s.take maxContentLength)) := by
  constructor
  · intro parsed dns rateOk sess h hres
    unfold FetchPage at hres
    cases hval : ValidateURL parsed dns with
    | error e => rw [hval] at hres; simp at hres
    | ok u =>
      rw [hval] at hres
      cases rateOk with
      | false => simp at hres
      | true => exact fetchLoop_ok_length sess maxRetries 0 h hres
  · intro parsed dns sess s hv h0 hbig
    have htr : truncateContent s = s.take maxContentLength := by
      unfold truncateContent
      rw [if_pos hbig]
    have hlen : (truncateContent s).length = maxContentLength := by
      rw [htr, List.length_take]
      omega
    have hmin : minContentLength ≤ (truncateContent s).length := by
      rw [hlen]
      norm_num [minContentLength, maxContentLength]
    simp only [FetchPage, hv, if_pos]
    have : fetchLoop sess 0 maxRetries =
        ⟨[.network 0], .ok (truncateContent s), 1⟩ := by
      show fetchLoop sess 0 (2 + 1) = _
      simp only [fetchLoop, h0]
      rw [if_pos hmin]
    rw [this, htr]

/-- Witness for C8: a page one character over the cap is truncated to
exactly the cap and returned. -/
theorem fetchPage_content_cap_witness :
    ValidateURL (some ⟨"https", "example.com"⟩) (.ok [.v4 93 184 216 34]) = .ok () ∧
    (sessBig 0).firstRead = .ok bigPage ∧
    maxContentLength < bigPage.length ∧
    (FetchPage (some ⟨"https", "example.com"⟩) (.ok [.v4 93 184 216 34]) true
      sessBig).result = .ok (bigPage.take maxContentLength) ∧
    (bigPage.take maxContentLength).length ≤ maxContentLength := by
  have hlen : maxContentLength < bigPage.length := by
    simp [bigPage]
  have hres := fetchPage_content_cap.2
    (some ⟨"https", "example.com"⟩) (.ok [.v4 93 184 216 34]) sessBig bigPage
    (by decide) rfl hlen
  exact ⟨by decide, rfl, hlen, hres,
    fetchPage_content_cap.1 _ _ _ _ _ hres⟩

/-- Key set of the result object after one JS-style assignment: unchanged
when the key is present, extended by the key otherwise. -/
theorem insertResult_keys (m : List (String × JSResult)) (k : String) (v : JSResult) :
    (insertResult m k v).map Prod.fst =
      if k ∈ m.map Prod.fst then m.map Prod.fst else m.map Prod.fst ++ [k] := by
  unfold insertResult
  by_cases h : m.any (fun p => p.1 = k)
  · have hk : k ∈ m.map Prod.fst := by
      obtain ⟨p, hp, he⟩ := List.any_eq_true.mp h
      exact List.mem_map.mpr ⟨p, hp, by simpa using he⟩
    rw [if_pos h, if_pos hk, List.map_map]
    apply List.map_congr_left
    intro p _
    by_cases hpk : p.1 = k
    · simp [hpk]
    · simp [hpk]
  · have hk : k ∉ m.map Prod.fst := by
      intro hmem
      obtain ⟨p, hp, he⟩ := List.mem_map.mp hmem
      exact h (List.any_eq_true.mpr ⟨p, hp, by simpa using he⟩)
    rw [if_neg h, if_neg hk, List.map_append]
    rfl

/-- Folding JS-style assignments over a URL list: the key set becomes the
union of the accumulator's keys and the URLs, and stays duplicate-free. -/
theorem upsertAll_keys (f : String → JSResult) :
    ∀ (urls : List String) (acc : List (String × JSResult)),
      (∀ u, u ∈ (upsertAll f urls acc).map Prod.fst ↔ u ∈ acc.map Prod.fst ∨ u ∈ urls) ∧
      ((acc.map Prod.fst).Nodup → ((upsertAll f urls acc).map Prod.fst).Nodup) := by
  intro urls
  induction urls with
  | nil =>
    intro acc
    constructor
    · intro u; simp [upsertAll]
    · intro h; simpa [upsertAll] using h
  | cons u0 rest ih =>
    intro acc
    have hstep : upsertAll f (u0 :: rest) acc =
        upsertAll f rest (insertResult acc u0 (f u0)) := rfl
    have hkeys := insertResult_keys acc u0 (f u0)
    constructor
    · intro u
      rw [hstep, (ih (insertResult acc u0 (f u0))).1 u, hkeys]
      by_cases h0 : u0 ∈ acc.map Prod.fst
      · rw [if_pos h0]
        constructor
        · rintro (h | h)
          · exact Or.inl h
          · exact Or.inr (List.mem_cons_of_mem _ h)
        · rintro (h | h)
          · exact Or.inl h
          · rcases List.mem_cons.mp h with rfl | h
            · exact Or.inl h0
            · exact Or.inr h
      · rw [if_neg h0]
        constructor
        · rintro (h | h)
          · rcases List.mem_append.mp h with h | h
            · exact Or.inl h
            · rw [List.mem_singleton] at h
              exact Or.inr (h ▸ List.mem_cons_self u0 rest)
          · exact Or.inr (List.mem_cons_of_mem _ h)
        · rintro (h | h)
          · exact Or.inl (List.mem_append.mpr (Or.inl h))
          · rcases List.mem_cons.mp h with rfl | h
            · exact Or.inl (List.mem_append.mpr (Or.inr (List.mem_singleton.mpr rfl)))
            · exact Or.inr h
    · intro hnd
      rw [hstep]
      apply (ih (insertResult acc u0 (f u0))).2
      rw [hkeys]
      by_cases h0 : u0 ∈ acc.map Prod.fst
      · rw [if_pos h0]; exact hnd
      · rw [if_neg h0]
        rw [List.nodup_append]
        exact ⟨hnd, List.nodup_singleton u0, by simpa using h0⟩

/-! Claim C2. -/

/-- C2: for every non-empty input URL list and any oracle behaviour, the
JS binding's batch entry point `crawl` completes without throwing and
returns a result object whose key set equals the set of input URLs, with
exactly one entry per URL (the Go `CrawlURLs` it invokes returns no
value; the result map is assembled here). -/
theorem crawl_batch_completeness :
    ∀ (parallel : Bool) (parExec : ExecOutcome) (exec : String → ExecOutcome)
      (find : String → FoundFiles) (urls : List String),
      urls ≠ [] →
      ∃ m, crawl parallel parExec exec find urls = .ok m ∧
        (∀ u, u ∈ m.map Prod.fst ↔ u ∈ urls) ∧ (m.map Prod.fst).Nodup := by
  intro parallel parExec exec find urls hne
  have hie : ¬(urls.isEmpty = true) := by
    cases urls with
    | nil => exact absurd rfl hne
    | cons x xs => simp
  unfold crawl
  rw [if_neg hie]
  by_cases hpar : parallel ∧ 1 < urls.length
  · rw [if_pos hpar]
    cases parExec with
    | succeeded =>
      refine ⟨_, rfl, ?_, ?_⟩
      · intro u
        rw [(upsertAll_keys _ urls []).1 u]
        simp
      · exact (upsertAll_keys _ urls []).2 (by simp)
    | failed =>
      refine ⟨_, rfl, ?_, ?_⟩
      · intro u
        rw [processSequentially, (upsertAll_keys _ urls []).1 u]
        simp
      · rw [processSequentially]
        exact (upsertAll_keys _ urls []).2 (by simp)
  · rw [if_neg hpar]
    refine ⟨_, rfl, ?_, ?_⟩
    · intro u
      rw [processSequentially, (upsertAll_keys _ urls []).1 u]
      simp
    · rw [processSequentially]
      exact (upsertAll_keys _ urls []).2 (by simp)

/-- Witness for C2: three URLs with one duplicate and a failing parallel
invocation still yield one entry per distinct URL. -/
theorem crawl_batch_completeness_witness :
    (["https://a.example", "https://b.example", "https://a.example"] : List String) ≠ [] ∧
    ∃ m, crawl true .failed execW findW
        ["https://a.example", "https://b.example", "https://a.example"] = .ok m ∧
      (∀ u, u ∈ m.map Prod.fst ↔
        u ∈ ["https://a.example", "https://b.example", "https://a.example"]) ∧
      (m.map Prod.fst).Nodup :=
  ⟨by decide, crawl_batch_completeness true .failed execW findW _ (by decide)⟩

/-- Characters of a single-character replacement: either the replacement
or an original character different from the pattern. -/
theorem mem_replaceChar (c u : Char) (s : List Char) (x : Char)
    (h : x ∈ replaceChar c u s) : x = u ∨ (x ∈ s ∧ x ≠ c) := by
  obtain ⟨y, hy, he⟩ := List.mem_map.mp h
  by_cases hyc : y = c
  · rw [if_pos hyc] at he
    exact Or.inl he.symm
  · rw [if_neg hyc] at he
    subst he
    exact Or.inr ⟨hy, hyc⟩

/-- Characters surviving the fold of single-character replacements over a
pattern list: either the replacement or an original character outside the
pattern list. -/
theorem foldl_replaceChar_mem (L : List Char) :
    ∀ (s : List Char) (x : Char),
      x ∈ L.foldl (fun r c => replaceChar c '_' r) s → x = '_' ∨ (x ∈ s ∧ x ∉ L) := by
  induction L with
  | nil => intro s x h; exact Or.inr ⟨h, by simp⟩
  | cons c cs ih =>
    intro s x h
    rcases ih (replaceChar c '_' s) x h with h1 | ⟨h1, h2⟩
    · exact Or.inl h1
    · rcases mem_replaceChar c '_' s x h1 with h3 | ⟨h3, h4⟩
      · exact Or.inl h3
      · refine Or.inr ⟨h3, ?_⟩
        simp only [List.mem_cons]
        rintro (rfl | hm)
        · exact h4 rfl
        · exact h2 hm

/-- Characters of the `..`-collapse output: an underscore or an original
character. -/
theorem replaceDotDot_mem :
    ∀ (s : List Char) (x : Char), x ∈ replaceDotDot s → x = '_' ∨ x ∈ s := by
  intro s
  induction s using replaceDotDot.induct with
  | case1 rest ih =>
    intro x h
    rw [replaceDotDot.eq_1] at h
    rcases List.mem_cons.mp h with rfl | h
    · exact Or.inl rfl
    · rcases ih x h with h1 | h1
      · exact Or.inl h1
      · exact Or.inr (by simp [h1])
  | case2 c rest h ih =>
    intro x hx
    rw [replaceDotDot.eq_2 c rest h] at hx
    rcases List.mem_cons.mp hx with rfl | hx
    · exact Or.inr (List.mem_cons_self _ _)
    · rcases ih x hx with h1 | h1
      · exact Or.inl h1
      · exact Or.inr (List.mem_cons_of_mem _ h1)
  | case3 => intro x h; rw [replaceDotDot.eq_3] at h; simp at h

/-- The head of the `..`-collapse output is the original head or an
underscore. -/
theorem replaceDotDot_headOr :
    ∀ s : List Char,
      (replaceDotDot s).head? = s.head? ∨ (replaceDotDot s).head? = some '_' := by
  intro s
  induction s using replaceDotDot.induct with
  | case1 rest ih => rw [replaceDotDot.eq_1]; exact Or.inr rfl
  | case2 c rest h ih => rw [replaceDotDot.eq_2 c rest h]; exact Or.inl rfl
  | case3 => rw [replaceDotDot.eq_3]; exact Or.inl rfl

/-- `hasDotDot` ignores a non-dot head. -/
theorem hasDotDot_cons_ne (c : Char) (hc : ¬(c = '.')) (R : List Char) :
    hasDotDot (c :: R) = hasDotDot R := by
  cases R with
  | nil => rfl
  | cons r rr => simp [hasDotDot, hc]

/-- The `..`-collapse output never contains two adjacent dots. -/
theorem replaceDotDot_no_dotdot :
    ∀ s : List Char, hasDotDot (replaceDotDot s) = false := by
  intro s
  induction s using replaceDotDot.induct with
  | case1 rest ih =>
    rw [replaceDotDot.eq_1, hasDotDot_cons_ne _ (by decide) _]
    exact ih
  | case2 c rest h ih =>
    rw [replaceDotDot.eq_2 c rest h]
    by_cases hc : c = '.'
    · subst hc
      have hrest : rest.head? ≠ some '.' := by
        intro hh
        cases rest with
        | nil => simp at hh
        | cons r rr =>
          simp only [List.head?_cons, Option.some.injEq] at hh
          exact h rr rfl (by rw [hh])
      cases hR : replaceDotDot rest with
      | nil => rfl
      | cons r1 rr1 =>
        have hr1 : ¬(r1 = '.') := by
          intro hr
          rcases replaceDotDot_headOr rest with hh | hh <;> rw [hR] at hh
          · exact hrest (by rw [← hh, List.head?_cons, hr])
          · simp only [List.head?_cons, Option.some.injEq] at hh
            rw [hh] at hr
            exact absurd hr (by decide)
        have := ih
        rw [hR] at this
        simp [hasDotDot, hr1, this]
    · rw [hasDotDot_cons_ne c hc]
      exact ih
  | case3 => rw [replaceDotDot.eq_3]; rfl

/-- A prefix cannot contain `..` when the whole list does not. -/
theorem hasDotDot_take (l : List Char) :
    ∀ n, hasDotDot (l.take n) = true → hasDotDot l = true := by
  induction l with
  | nil => intro n h; simpa using h
  | cons c t ih =>
    intro n h
    cases n with
    | zero => simp [hasDotDot] at h
    | succ m =>
      rw [List.take_succ_cons] at h
      cases t with
      | nil =>
        rw [List.take_nil] at h
        simp [hasDotDot] at h
      | cons d tt =>
        cases m with
        | zero => simp [hasDotDot] at h
        | succ k =>
          rw [List.take_succ_cons] at h
          simp only [hasDotDot, Bool.or_eq_true] at h ⊢
          rcases h with h | h
          · exact Or.inl h
          · exact Or.inr (ih (k + 1) (by rw [List.take_succ_cons]; exact h))

/-- Truncation to 200 characters preserves the absence of unsafe
characters and of `..`, and bounds the length. -/
theorem truncate200_props (r2 : List Char)
    (hmem : ∀ x ∈ r2, x ∉ unsafeChars) (hdd : hasDotDot r2 = false) :
    (∀ x ∈ (if 200 < r2.length then r2.take 200 else r2), x ∉ unsafeChars) ∧
    hasDotDot (if 200 < r2.length then r2.take 200 else r2) = false ∧
    (if 200 < r2.length then r2.take 200 else r2).length ≤ 200 := by
  refine ⟨?_, ?_, ?_⟩
  · intro x hx
    split at hx
    · exact hmem x (List.take_subset _ _ hx)
    · exact hmem x hx
  · split
    · rw [Bool.eq_false_iff]
      intro h
      have h2 := hasDotDot_take _ 200 h
      rw [hdd] at h2
      exact Bool.false_ne_true h2
    · exact hdd
  · split
    · rw [List.length_take]
      omega
    · omega

/-- Unfolding of `sanitizeParsed` into the final truncation step. -/
theorem sanitizeParsed_eq (host path : List Char) :
    sanitizeParsed host path =
      (if 200 < (replaceDotDot (unsafeChars.foldl (fun r c => replaceChar c '_' r)
          (host ++ (if path ≠ [] ∧ path ≠ ['/'] then '_' :: trimSlashes path else [])))).length
       then (replaceDotDot (unsafeChars.foldl (fun r c => replaceChar c '_' r)
          (host ++ (if path ≠ [] ∧ path ≠ ['/'] then '_' :: trimSlashes path else [])))).take 200
       else replaceDotDot (unsafeChars.foldl (fun r c => replaceChar c '_' r)
          (host ++ (if path ≠ [] ∧ path ≠ ['/'] then '_' :: trimSlashes path else [])))) := rfl

/-- The parse-success branch of `SanitizeURL` yields an output free of
unsafe characters and `..`, of length at most 200, for any host and
path. -/
theorem sanitizeParsed_props (host path : List Char) :
    (∀ x ∈ sanitizeParsed host path, x ∉ unsafeChars) ∧
    hasDotDot (sanitizeParsed host path) = false ∧
    (sanitizeParsed host path).length ≤ 200 := by
  have hchain : ∀ (r0 : List Char),
      ∀ x ∈ replaceDotDot (unsafeChars.foldl (fun r c => replaceChar c '_' r) r0),
        x ∉ unsafeChars := by
    intro r0 x hx
    rcases replaceDotDot_mem _ x hx with rfl | hx1
    · decide
    · rcases foldl_replaceChar_mem unsafeChars r0 x hx1 with rfl | ⟨_, h2⟩
      · decide
      · exact h2
  rw [sanitizeParsed_eq]
  exact truncate200_props _ (fun x hx => hchain _ x hx) (replaceDotDot_no_dotdot _)

/-! Claim C6. -/

/-- C6 counterexample: on the input `%zz..`, which Go's `url.Parse`
rejects (invalid percent escape), `SanitizeURL` takes its fallback
branch and returns the string unchanged — it still contains `..` and the
unsafe character `%`, refuting the claim for every input string. -/
theorem sanitizeURL_counterexample :
    hasDotDot (SanitizeURL none (("%zz..").toList)) = true ∧
    '%' ∈ SanitizeURL none (("%zz..").toList) ∧
    SanitizeURL none (("%zz..").toList) = ("%zz..").toList := by decide

/-- C6 amended: for every input string that Go's `url.Parse` accepts
(the parse-success branch), the `SanitizeURL` output contains no `/`,
`\`, `:`, no `..` substring, no character of the unsafe table at all,
and is at most 200 characters long; inputs rejected by `url.Parse` go
through a weaker fallback that only replaces nine characters. -/
theorem sanitizeURL_parse_success_safe :
    ∀ host path raw : List Char,
      ('/' ∉ SanitizeURL (some (host, path)) raw ∧
       '\\' ∉ SanitizeURL (some (host, path)) raw ∧
       ':' ∉ SanitizeURL (some (host, path)) raw) ∧
      (∀ x ∈ SanitizeURL (some (host, path)) raw, x ∉ unsafeChars) ∧
      hasDotDot (SanitizeURL (some (host, path)) raw) = false ∧
      (SanitizeURL (some (host, path)) raw).length ≤ 200 := by
  intro host path raw
  have h := sanitizeParsed_props host path
  have hs : SanitizeURL (some (host, path)) raw = sanitizeParsed host path := rfl
  rw [hs]
  refine ⟨⟨?_, ?_, ?_⟩, h.1, h.2.1, h.2.2⟩
  · intro hm; exact h.1 '/' hm (by decide)
  · intro hm; exact h.1 '\\' hm (by decide)
  · intro hm; exact h.1 ':' hm (by decide)

/-- `splitSlash` never returns the empty list. -/
theorem splitSlash_ne_nil (s : List Char) : splitSlash s ≠ [] := by
  cases s with
  | nil => simp [splitSlash]
  | cons c t =>
    simp only [splitSlash]
    split
    · simp
    · split
      · simp
      · simp

/-- A slash-free string is a single component. -/
theorem splitSlash_noSlash : ∀ s : List Char, '/' ∉ s → splitSlash s = [s] := by
  intro s
  induction s with
  | nil => intro h; rfl
  | cons c t ih =>
    intro h
    have hc : ¬(c = '/') := fun he => h (he ▸ List.mem_cons_self c t)
    have ht : '/' ∉ t := fun hm => h (List.mem_cons_of_mem c hm)
    simp only [splitSlash, if_neg hc, ih ht]

/-- Splitting distributes over an explicit separator. -/
theorem splitSlash_append (a b : List Char) :
    splitSlash (a ++ '/' :: b) = splitSlash a ++ splitSlash b := by
  induction a with
  | nil => simp [splitSlash]
  | cons c t ih =>
    by_cases hc : c = '/'
    · subst hc
      show [] :: splitSlash (t ++ '/' :: b) = ([] :: splitSlash t) ++ splitSlash b
      rw [ih, List.cons_append]
    · cases hsp : splitSlash t with
      | nil => exact absurd hsp (splitSlash_ne_nil t)
      | cons s ss =>
        have hlhs : splitSlash (t ++ '/' :: b) = s :: (ss ++ splitSlash b) := by
          rw [ih, hsp]
          rfl
        have h1 : splitSlash ((c :: t) ++ '/' :: b) = (c :: s) :: (ss ++ splitSlash b) := by
          rw [List.cons_append]
          simp only [splitSlash, if_neg hc]
          rw [hlhs]
        have h2 : splitSlash (c :: t) = (c :: s) :: ss := by
          simp only [splitSlash, if_neg hc]
          rw [hsp]
        rw [h1, h2, List.cons_append]

/-- Every piece produced by `splitSlash` is slash-free. -/
theorem splitSlash_pieces : ∀ (s p : List Char), p ∈ splitSlash s → '/' ∉ p := by
  intro s
  induction s with
  | nil =>
    intro p hp
    simp only [splitSlash, List.mem_singleton] at hp
    subst hp
    simp
  | cons c t ih =>
    intro p hp
    by_cases hc : c = '/'
    · subst hc
      have hp2 : p ∈ [] :: splitSlash t := hp
      rcases List.mem_cons.mp hp2 with rfl | hp3
      · simp
      · exact ih p hp3
    · cases hsp : splitSlash t with
      | nil => exact absurd hsp (splitSlash_ne_nil t)
      | cons s1 ss =>
        have hs1 : s1 ∈ splitSlash t := by rw [hsp]; exact List.mem_cons_self _ _
        have hp2 : p ∈ (c :: s1) :: ss := by
          have hunf : splitSlash (c :: t) = (c :: s1) :: ss := by
            simp only [splitSlash, if_neg hc]
            rw [hsp]
          rw [← hunf]
          exact hp
        rcases List.mem_cons.mp hp2 with rfl | hp3
        · intro hm
          rcases List.mem_cons.mp hm with he | hm
          · exact hc he.symm
          · exact ih s1 hs1 hm
        · refine ih p ?_
          rw [hsp]
          exact List.mem_cons_of_mem s1 hp3

/-- Folding `cleanStep` over good components appends them. -/
theorem foldl_cleanStep_goods :
    ∀ (cs : List (List Char)), (∀ c ∈ cs, goodComp c) →
      ∀ acc, List.foldl cleanStep acc cs = acc ++ cs := by
  intro cs
  induction cs with
  | nil => intro _ acc; simp
  | cons c cs' ih =>
    intro hg acc
    have hc := hg c (List.mem_cons_self c cs')
    have hstep : cleanStep acc c = acc ++ [c] := by
      unfold cleanStep
      rw [if_neg (by rintro (h | h) <;> [exact hc.1 h; exact hc.2.1 h]),
        if_neg hc.2.2]
    rw [List.foldl_cons, hstep, ih (fun x hx => hg x (List.mem_cons_of_mem c hx))]
    simp

/-- Components surviving `cleanStep` folding are good and slash-free,
provided the accumulator's are and the input pieces are slash-free. -/
theorem foldl_cleanStep_inv :
    ∀ (cs : List (List Char)) (acc : List (List Char)),
      (∀ x ∈ acc, goodComp x ∧ '/' ∉ x) →
      (∀ p ∈ cs, '/' ∉ p) →
      ∀ x ∈ List.foldl cleanStep acc cs, goodComp x ∧ '/' ∉ x := by
  intro cs
  induction cs with
  | nil => intro acc hacc _ x hx; exact hacc x hx
  | cons c cs' ih =>
    intro acc hacc hcs x hx
    rw [List.foldl_cons] at hx
    refine ih (cleanStep acc c) ?_ (fun p hp => hcs p (List.mem_cons_of_mem c hp)) x hx
    intro y hy
    unfold cleanStep at hy
    split at hy
    · exact hacc y hy
    · split at hy
      · exact hacc y (List.dropLast_subset _ hy)
      · rcases List.mem_append.mp hy with hy | hy
        · exact hacc y hy
        · rw [List.mem_singleton] at hy
          subst hy
          refine ⟨⟨?_, ?_, ?_⟩, hcs y (List.mem_cons_self _ _)⟩
          · intro h; exact absurd (Or.inl h) (by assumption)
          · intro h; exact absurd (Or.inr h) (by assumption)
          · intro h; exact absurd h (by assumption)

/-- Rendering then splitting an absolute component list recovers the
components, headed by the empty piece before the leading slash. -/
theorem splitSlash_renderAbs :
    ∀ cs : List (List Char), cs ≠ [] → (∀ c ∈ cs, c ≠ [] ∧ '/' ∉ c) →
      splitSlash (renderAbs cs) = [] :: cs := by
  intro cs
  induction cs with
  | nil => intro h; exact absurd rfl h
  | cons c cs' ih =>
    intro _ hg
    cases cs' with
    | nil =>
      have hc := hg c (List.mem_cons_self c [])
      have hr : renderAbs [c] = '/' :: c := by
        simp [renderAbs]
      rw [hr]
      show [] :: splitSlash c = [[], c]
      rw [splitSlash_noSlash c hc.2]
    | cons c2 rest =>
      have hY : renderAbs (c2 :: rest) = '/' :: (c2 ++ (rest.map (fun x => '/' :: x)).flatten) := by
        simp [renderAbs]
      have hfull : renderAbs (c :: c2 :: rest) =
          '/' :: (c ++ '/' :: (c2 ++ (rest.map (fun x => '/' :: x)).flatten)) := by
        simp [renderAbs]
      have hih := ih (List.cons_ne_nil c2 rest)
        (fun x hx => hg x (List.mem_cons_of_mem c hx))
      rw [hY] at hih
      have hih2 : [] :: splitSlash (c2 ++ (rest.map (fun x => '/' :: x)).flatten) =
          [] :: c2 :: rest := hih
      have hYsplit : splitSlash (c2 ++ (rest.map (fun x => '/' :: x)).flatten) = c2 :: rest := by
        injection hih2
      rw [hfull]
      show [] :: splitSlash (c ++ '/' :: (c2 ++ (rest.map (fun x => '/' :: x)).flatten)) =
        [] :: c :: c2 :: rest
      rw [splitSlash_append, hYsplit,
        splitSlash_noSlash c (hg c (List.mem_cons_self _ _)).2]
      rfl

/-- Cleaning the rendered form of good components recovers them. -/
theorem absComps_renderAbs (cwd : List (List Char)) :
    ∀ cs : List (List Char), (∀ c ∈ cs, goodComp c ∧ '/' ∉ c) →
      absComps cwd (renderAbs cs) = cs := by
  intro cs hg
  cases cs with
  | nil => rfl
  | cons c cs' =>
    have hr : renderAbs (c :: cs') = '/' :: (c ++ (cs'.map (fun x => '/' :: x)).flatten) := by
      simp [renderAbs]
    have hhead : (renderAbs (c :: cs')).head? = some '/' := by rw [hr]; rfl
    have hsplit := splitSlash_renderAbs (c :: cs') (List.cons_ne_nil _ _)
      (fun x hx => ⟨(hg x hx).1.1, (hg x hx).2⟩)
    unfold absComps
    rw [if_pos hhead, hsplit, List.foldl_cons]
    have h0 : cleanStep [] ([] : List Char) = [] := rfl
    rw [h0, foldl_cleanStep_goods (c :: cs') (fun x hx => (hg x hx).1) []]
    simp

/-- Cleaning a relative path made of one good slash-free component
appends it to the working directory. -/
theorem absComps_relative_single (cwd : List (List Char)) (b : List Char)
    (hb : goodComp b) (hns : '/' ∉ b) (hh : b.head? ≠ some '/') :
    absComps cwd b = cwd ++ [b] := by
  unfold absComps
  rw [if_neg hh, splitSlash_noSlash b hns, List.foldl_cons, List.foldl_nil]
  unfold cleanStep
  rw [if_neg (by rintro (h | h) <;> [exact hb.1 h; exact hb.2.1 h]), if_neg hb.2.2]

/-- The empty output directory resolves to the working directory. -/
theorem absComps_nil (cwd : List (List Char)) : absComps cwd [] = cwd := rfl

/-- The `.` output directory resolves to the working directory. -/
theorem absComps_dot (cwd : List (List Char)) : absComps cwd ['.'] = cwd := rfl

/-- `GetDomainNameForFile` never produces a slash when the hostname has
none (the path's slashes are replaced by underscores). -/
theorem domain_noSlash (parsed : Option (List Char × List Char))
    (hh : ∀ h p, parsed = some (h, p) → '/' ∉ h) :
    '/' ∉ GetDomainNameForFile parsed := by
  cases parsed with
  | none => decide
  | some hp =>
    obtain ⟨h, p⟩ := hp
    have hhost := hh h p rfl
    simp only [GetDomainNameForFile]
    split
    · intro hm
      rcases mem_replaceChar _ _ _ _ hm with he | ⟨hmem, _⟩
      · exact absurd he (by decide)
      · exact hhost hmem
    · intro hm
      rcases List.mem_append.mp hm with hm | hm
      · rcases mem_replaceChar _ _ _ _ hm with he | ⟨hmem, _⟩
        · exact absurd he (by decide)
        · exact hhost hmem
      · rcases List.mem_cons.mp hm with he | hm
        · exact absurd he (by decide)
        · rcases mem_replaceChar _ _ _ _ hm with he | ⟨_, hne⟩
          · exact absurd he (by decide)
          · exact hne rfl

/-- The coerced file extension is always slash-free. -/
theorem safeFileType_noSlash (fileType : List Char) :
    '/' ∉ (if fileType = ("html").toList ∨ fileType = ("md").toList
           then fileType else ("txt").toList) := by
  split
  · next h => rcases h with rfl | rfl <;> decide
  · decide

/-- The filename base `domain_date.ext` is a good, slash-free path
component. -/
theorem base_facts (domain date sft : List Char)
    (hd : '/' ∉ domain) (hdate : '/' ∉ date) (hsft : '/' ∉ sft) :
    goodComp (domain ++ '_' :: date ++ '.' :: sft) ∧
    '/' ∉ (domain ++ '_' :: date ++ '.' :: sft) := by
  have hmem : '_' ∈ domain ++ '_' :: date ++ '.' :: sft :=
    List.mem_append_left _ (List.mem_append_right _ (List.mem_cons_self _ _))
  constructor
  · refine ⟨List.ne_nil_of_mem hmem, ?_, ?_⟩
    · intro he; rw [he] at hmem; exact absurd hmem (by decide)
    · intro he; rw [he] at hmem; exact absurd hmem (by decide)
  · intro hs
    rcases List.mem_append.mp hs with h | h
    · rcases List.mem_append.mp h with h | h
      · exact hd h
      · rcases List.mem_cons.mp h with he | h
        · exact absurd he (by decide)
        · exact hdate h
    · rcases List.mem_cons.mp h with he | h
      · exact absurd he (by decide)
      · exact hsft h

/-- A list not containing a character cannot have it as head. -/
theorem head_ne_of_not_mem {x : Char} {l : List Char} (h : x ∉ l) :
    l.head? ≠ some x := by
  intro hh
  cases l with
  | nil => simp at hh
  | cons a t =>
    simp only [List.head?_cons, Option.some.injEq] at hh
    exact h (hh ▸ List.mem_cons_self a t)

/-! Claim C9. -/

/-- An if-then-else between a success and an error that evaluates to a
success must have taken the success branch. -/
theorem ite_ok_inj {ε α : Type} {p : Prop} [Decidable p] {a r : α} {e : ε}
    (h : (if p then Except.ok a else Except.error e) = Except.ok r) : a = r := by
  split at h
  · injection h
  · exact absurd h (by simp)

/-- C9: whenever `SaveToLocalFile` returns a filename without error, the
absolute resolution of that filename lies inside the absolute resolution
of `outputDir` (the written file is a single safe component directly
under it); an `outputDir` containing `..` is rejected with an error and
nothing is written.  The hypotheses state what Go guarantees about the
inputs: the working-directory components are clean, `Hostname()` and the
formatted date contain no slash. -/
theorem saveToLocalFile_path_confinement :
    ∀ (cwd : List (List Char)) (content : List Char)
      (parsed : Option (List Char × List Char)) (date fileType outputDir : List Char),
      (∀ comp ∈ cwd, goodComp comp ∧ '/' ∉ comp) →
      (∀ h p, parsed = some (h, p) → '/' ∉ h) →
      '/' ∉ date →
      ((∀ fn c, SaveToLocalFile cwd content parsed date fileType outputDir = .ok (fn, c) →
          isWithin cwd fn outputDir) ∧
       (hasDotDot outputDir = true →
          SaveToLocalFile cwd content parsed date fileType outputDir = .error .dirTraversal)) := by
  intro cwd content parsed date fileType outputDir hcwd hhost hdate
  constructor
  · intro fn c hok
    by_cases hdd : hasDotDot outputDir = true
    · rw [SaveToLocalFile, if_pos hdd] at hok
      exact absurd hok (by simp)
    · have hdom : '/' ∉ GetDomainNameForFile parsed := domain_noSlash parsed hhost
      have hsft := safeFileType_noSlash fileType
      have hbase := base_facts (GetDomainNameForFile parsed) date _ hdom hdate hsft
      simp only [SaveToLocalFile] at hok
      rw [if_neg hdd] at hok
      by_cases hdir : outputDir ≠ [] ∧ outputDir ≠ ['.']
      · rw [if_pos hdir] at hok
        have hpair := ite_ok_inj hok
        rw [Prod.mk.injEq] at hpair
        obtain ⟨hfn, -⟩ := hpair
        rw [← hfn]
        have hocs : ∀ x ∈ absComps cwd outputDir, goodComp x ∧ '/' ∉ x := by
          unfold absComps
          apply foldl_cleanStep_inv
          · split
            · intro x hx; simp at hx
            · exact hcwd
          · exact splitSlash_pieces outputDir
        have habs : absComps cwd
            (renderAbs (absComps cwd outputDir ++
              [GetDomainNameForFile parsed ++ '_' :: date ++ '.' ::
                (if fileType = ("html").toList ∨ fileType = ("md").toList
                 then fileType else ("txt").toList)])) =
            absComps cwd outputDir ++
              [GetDomainNameForFile parsed ++ '_' :: date ++ '.' ::
                (if fileType = ("html").toList ∨ fileType = ("md").toList
                 then fileType else ("txt").toList)] := by
          apply absComps_renderAbs
          intro x hx
          rcases List.mem_append.mp hx with hx | hx
          · exact hocs x hx
          · rw [List.mem_singleton] at hx
            subst hx
            exact hbase
        exact ⟨_, habs⟩
      · rw [if_neg hdir] at hok
        have hpair := ite_ok_inj hok
        rw [Prod.mk.injEq] at hpair
        obtain ⟨hfn, -⟩ := hpair
        rw [← hfn]
        have habs2 := absComps_relative_single cwd _ hbase.1 hbase.2
          (head_ne_of_not_mem hbase.2)
        have houtdir : absComps cwd outputDir = cwd := by
          rcases not_and_or.mp hdir with h | h
          · rw [not_ne_iff.mp h]
            exact absComps_nil cwd
          · rw [not_ne_iff.mp h]
            exact absComps_dot cwd
        refine ⟨[GetDomainNameForFile parsed ++ '_' :: date ++ '.' ::
          (if fileType = ("html").toList ∨ fileType = ("md").toList
           then fileType else ("txt").toList)], ?_⟩
        rw [habs2, houtdir]
  · intro hdd
    rw [SaveToLocalFile, if_pos hdd]

/-- Witness for C9: saving html for https://example.com/a/b under
output directory `out` with working directory `/tmp` writes
`/tmp/out/example_com_a_b_2025-01-01.html`, which resolves inside the
output directory. -/
theorem saveToLocalFile_path_confinement_witness :
    (∀ comp ∈ ([("tmp").toList] : List (List Char)), goodComp comp ∧ '/' ∉ comp) ∧
    '/' ∉ ("2025-01-01").toList ∧
    SaveToLocalFile [("tmp").toList] (("hello").toList)
        (some (("example.com").toList, ("/a/b").toList)) (("2025-01-01").toList)
        (("html").toList) (("out").toList) =
      .ok (("/tmp/out/example_com_a_b_2025-01-01.html").toList, ("hello").toList) ∧
    isWithin [("tmp").toList] (("/tmp/out/example_com_a_b_2025-01-01.html").toList)
      (("out").toList) := by
  refine ⟨by decide, by decide, by decide, ?_⟩
  exact (saveToLocalFile_path_confinement [("tmp").toList] (("hello").toList)
      (some (("example.com").toList, ("/a/b").toList)) (("2025-01-01").toList)
      (("html").toList) (("out").toList)
      (by decide) (by intro h p he; cases he; decide) (by decide)).1
    (("/tmp/out/example_com_a_b_2025-01-01.html").toList) (("hello").toList) (by decide)
